import Mathlib

/-!
Verification of `meta.c` (the meta-communication channel of the tinc daemon):
`send_meta`, `broadcast_meta` and `receive_meta`, shallowly embedded over lists
of bytes (`Nat` values).  The per-connection accumulation buffer
(`c->buffer->input`) is the list of its readable bytes; the two consumers
(`receive_tcppacket`, `receive_request`) are modelled by the trace of units
delivered to them and, for `receive_request`, a verdict function that may also
set `c->tcplen` (as the real request handlers do for PACKET announcements).
-/

/-- The newline byte `'\n'` used by `memchr(bufp, '\n', inlen)` and by line
extraction from the accumulation buffer. -/
def NL : Nat := 10

/-- A protocol unit delivered to a consumer: an opaque TCP-packet block handed
to `receive_tcppacket`, or a text line handed to `receive_request`. -/
inductive MsgUnit where
  | block : List Nat → MsgUnit
  | line : List Nat → MsgUnit
deriving DecidableEq, Repr

/-- Result of one `receive_meta` invocation (or of its inner drain loop):
the boolean return value, the final `c->tcplen`, the final readable content of
the accumulation buffer, and the units delivered to the handlers in order.
When `ok = false` the connection is torn down by the caller; `tcplen` and
`buffer` then record the state at the point of failure. -/
structure RState where
  ok : Bool
  tcplen : Nat
  buffer : List Nat
  units : List MsgUnit
deriving DecidableEq, Repr

/-- Prepend one delivered unit to a result's trace. -/
def consU (u : MsgUnit) (r : RState) : RState :=
  ⟨r.ok, r.tcplen, r.buffer, u :: r.units⟩

/-- Prepend a list of already-delivered units to a result's trace. -/
def appendU (us : List MsgUnit) (r : RState) : RState :=
  ⟨r.ok, r.tcplen, r.buffer, us ++ r.units⟩

/-- Modelled from the spec: the line-extraction primitive behind libevent's
`evbuffer_readline`, whose implementation is not part of this repository.
The spec fixes the framing to "a text line terminated by a single newline
byte"; `evbuffer_readline` returns the line with the terminator stripped and
drains line plus terminator from the buffer.  `splitLine b` returns
`some (ln, rest)` where `ln` is the content of the first line (terminator
excluded) and `rest` the bytes after the terminator, or `none` when no
complete line is present. -/
def splitLine : List Nat → Option (List Nat × List Nat)
  | [] => none
  | b :: rest =>
    if b = NL then some ([], rest)
    else
      match splitLine rest with
      | none => none
      | some (ln, r) => some (b :: ln, r)

theorem splitLine_some_append {l ln rest : List Nat}
    (h : splitLine l = some (ln, rest)) : l = ln ++ NL :: rest := by
  induction l generalizing ln rest with
  | nil => simp [splitLine] at h
  | cons b bs ih =>
    by_cases hb : b = NL
    · simp [splitLine, hb] at h
      simp [← h.1, ← h.2, hb]
    · simp only [splitLine, if_neg hb] at h
      cases hs : splitLine bs with
      | none => rw [hs] at h; simp at h
      | some p =>
        rw [hs] at h
        cases p with
        | mk ln0 r0 =>
          simp at h
          rw [← h.1, ← h.2]
          simpa using ih hs

theorem splitLine_some_not_mem {l ln rest : List Nat}
    (h : splitLine l = some (ln, rest)) : NL ∉ ln := by
  induction l generalizing ln rest with
  | nil => simp [splitLine] at h
  | cons b bs ih =>
    by_cases hb : b = NL
    · simp [splitLine, hb] at h
      obtain ⟨h1, h2⟩ := h
      subst h1
      simp
    · simp only [splitLine, if_neg hb] at h
      cases hs : splitLine bs with
      | none => rw [hs] at h; simp at h
      | some p =>
        rw [hs] at h
        cases p with
        | mk ln0 r0 =>
          simp at h
          rw [← h.1]
          intro hmem
          rcases List.mem_cons.mp hmem with h1 | h1
          · exact hb h1.symm
          · exact ih hs h1

theorem splitLine_some_length {l ln rest : List Nat}
    (h : splitLine l = some (ln, rest)) : rest.length < l.length := by
  have := splitLine_some_append h
  subst this
  simp
  omega

theorem splitLine_append_some {l ln rest : List Nat} (e : List Nat)
    (h : splitLine l = some (ln, rest)) :
    splitLine (l ++ e) = some (ln, rest ++ e) := by
  induction l generalizing ln rest with
  | nil => simp [splitLine] at h
  | cons b bs ih =>
    by_cases hb : b = NL
    · simp [splitLine, hb] at h ⊢
      exact ⟨h.1, by rw [← h.2]⟩
    · simp only [splitLine, if_neg hb] at h
      cases hs : splitLine bs with
      | none => rw [hs] at h; simp at h
      | some p =>
        rw [hs] at h
        cases p with
        | mk ln0 r0 =>
          simp at h
          obtain ⟨h1, h2⟩ := h
          subst h1
          subst h2
          simp only [List.cons_append, splitLine, if_neg hb, List.append_eq]
          rw [ih hs]

theorem splitLine_cons_of_not_mem {ln rest : List Nat} (h : NL ∉ ln) :
    splitLine (ln ++ NL :: rest) = some (ln, rest) := by
  induction ln with
  | nil => simp [splitLine]
  | cons b bs ih =>
    have hb : b ≠ NL := by
      intro hc; exact h (by simp [hc])
    have hbs : NL ∉ bs := fun hc => h (by simp [hc])
    simp [splitLine, if_neg hb, ih hbs]

/-- One iteration of the plaintext scratch-transfer loop of `receive_meta`
(`memchr(bufp, '\n', inlen)`): the segment copied into the accumulation
buffer — up to and including the first newline, or the whole remainder when
none is found — together with the unconsumed rest of the scratch buffer. -/
def takeSeg (s : List Nat) : List Nat × List Nat :=
  match splitLine s with
  | some (ln, rest) => (ln ++ [NL], rest)
  | none => (s, [])

theorem takeSeg_append (s : List Nat) : (takeSeg s).1 ++ (takeSeg s).2 = s := by
  unfold takeSeg
  cases hs : splitLine s with
  | none => simp
  | some p =>
    cases p with
    | mk ln rest =>
      simp [splitLine_some_append hs]

theorem takeSeg_fst_ne {s : List Nat} (h : s ≠ []) : (takeSeg s).1 ≠ [] := by
  unfold takeSeg
  cases hs : splitLine s with
  | none => simpa using h
  | some p =>
    cases p with
    | mk ln rest => simp

theorem takeSeg_snd_length {s : List Nat} (h : (takeSeg s).2 ≠ []) :
    (takeSeg s).2.length < s.length := by
  unfold takeSeg at h ⊢
  cases hs : splitLine s with
  | none => rw [hs] at h; simp at h
  | some p =>
    cases p with
    | mk ln rest =>
      simpa using splitLine_some_length hs

/-- The drain loop of `receive_meta` (`while(c->buffer->input->off) { ... }`),
with an explicit fuel argument to make the recursion structural; the wrapper
`drain` below supplies adequate fuel (`buffer.length` suffices, every
iteration consuming at least one buffered byte).  With `c->tcplen` nonzero
and enough buffered bytes, the first `tcplen` bytes go to `receive_tcppacket`
as one block, are drained, `tcplen` is reset and the loop continues;
otherwise a complete line is extracted and handed to `receive_request`,
whose `false` verdict makes the whole call return false; the loop stops when
the buffer is empty, an announced block is still incomplete, or no complete
line is buffered.  The request handler's verdict function also returns the
`tcplen` it leaves behind (the real handlers set `c->tcplen` for PACKET
announcements). -/
def drainF (hreq : List Nat → Bool × Nat) : Nat → Nat → List Nat → RState
  | _, tcplen, [] => ⟨true, tcplen, [], []⟩
  | 0, tcplen, buffer => ⟨true, tcplen, buffer, []⟩
  | fuel + 1, tcplen, buffer =>
    if tcplen ≠ 0 then
      if tcplen ≤ buffer.length then
        consU (.block (buffer.take tcplen)) (drainF hreq fuel 0 (buffer.drop tcplen))
      else ⟨true, tcplen, buffer, []⟩
    else
      match splitLine buffer with
      | some (ln, rest) =>
        if (hreq ln).1 then consU (.line ln) (drainF hreq fuel (hreq ln).2 rest)
        else ⟨false, (hreq ln).2, rest, [.line ln]⟩
      | none => ⟨true, tcplen, buffer, []⟩

/-- The drain loop with the fuel instantiated to its own termination
measure. -/
def drain (hreq : List Nat → Bool × Nat) (tcplen : Nat) (buffer : List Nat) :
    RState :=
  drainF hreq buffer.length tcplen buffer

theorem drainF_adequate (hreq : List Nat → Bool × Nat) :
    ∀ fuel tcplen buffer, buffer.length ≤ fuel →
      drainF hreq fuel tcplen buffer = drain hreq tcplen buffer := by
  intro fuel
  induction fuel using Nat.strong_induction_on with
  | _ fuel ih =>
    intro tcplen buffer hle
    cases buffer with
    | nil =>
      cases fuel <;> rfl
    | cons b bs =>
      cases fuel with
      | zero => simp at hle
      | succ f =>
        unfold drain
        have hlen : (b :: bs).length = bs.length + 1 := rfl
        rw [hlen]
        show drainF hreq (f + 1) tcplen (b :: bs)
          = drainF hreq (bs.length + 1) tcplen (b :: bs)
        simp only [drainF]
        by_cases ht : tcplen ≠ 0
        · simp only [if_pos ht]
          by_cases hle2 : tcplen ≤ (b :: bs).length
          · simp only [if_pos hle2]
            have h1 : ((b :: bs).drop tcplen).length ≤ f := by
              simp at hle ⊢
              omega
            have h2 : ((b :: bs).drop tcplen).length ≤ bs.length := by
              simp
              omega
            rw [ih f (by omega) 0 _ h1, ih bs.length (by omega) 0 _ h2]
          · simp only [if_neg hle2]
        · simp only [if_neg ht]
          cases hs : splitLine (b :: bs) with
          | none => rfl
          | some p =>
            cases p with
            | mk ln rest =>
              have hr : rest.length < (b :: bs).length := splitLine_some_length hs
              by_cases hv : (hreq ln).1
              · simp only [if_pos hv]
                have h1 : rest.length ≤ f := by
                  simp at hle
                  simp at hr
                  omega
                have h2 : rest.length ≤ bs.length := by
                  simp at hr
                  omega
                rw [ih f (by omega) (hreq ln).2 _ h1,
                  ih bs.length (by omega) (hreq ln).2 _ h2]
              · simp only [if_neg hv]

theorem drain_nil (hreq : List Nat → Bool × Nat) (tcplen : Nat) :
    drain hreq tcplen [] = ⟨true, tcplen, [], []⟩ := rfl

theorem drain_eq (hreq : List Nat → Bool × Nat) (tcplen : Nat)
    (buffer : List Nat) :
    drain hreq tcplen buffer =
      if buffer = [] then ⟨true, tcplen, buffer, []⟩
      else if tcplen ≠ 0 then
        if tcplen ≤ buffer.length then
          consU (.block (buffer.take tcplen)) (drain hreq 0 (buffer.drop tcplen))
        else ⟨true, tcplen, buffer, []⟩
      else
        match splitLine buffer with
        | some (ln, rest) =>
          if (hreq ln).1 then consU (.line ln) (drain hreq (hreq ln).2 rest)
          else ⟨false, (hreq ln).2, rest, [.line ln]⟩
        | none => ⟨true, tcplen, buffer, []⟩ := by
  cases buffer with
  | nil => simp [drain_nil]
  | cons b bs =>
    have hne : (b :: bs) ≠ [] := by simp
    rw [if_neg hne]
    show drainF hreq ((b :: bs).length) tcplen (b :: bs) = _
    have hlen : (b :: bs).length = bs.length + 1 := rfl
    rw [hlen]
    simp only [drainF]
    by_cases ht : tcplen ≠ 0
    · simp only [if_pos ht]
      by_cases hle2 : tcplen ≤ (b :: bs).length
      · simp only [if_pos hle2]
        rw [drainF_adequate hreq bs.length 0 _ (by simp; omega)]
        rw [if_pos (show tcplen ≤ bs.length + 1 by simpa using hle2)]
      · simp only [if_neg hle2]
        rw [if_neg (show ¬tcplen ≤ bs.length + 1 by simpa using hle2)]
    · simp only [if_neg ht]
      cases hs : splitLine (b :: bs) with
      | none => rfl
      | some p =>
        cases p with
        | mk ln rest =>
          have hr : rest.length < (b :: bs).length := splitLine_some_length hs
          by_cases hv : (hreq ln).1
          · simp only [if_pos hv]
            rw [drainF_adequate hreq bs.length (hreq ln).2 rest
              (by simp at hr; omega)]
          · simp only [if_neg hv]

theorem consU_appendU (u : MsgUnit) (us : List MsgUnit) (r : RState) :
    consU u (appendU us r) = appendU (u :: us) r := rfl

theorem appendU_nil (r : RState) : appendU [] r = r := rfl

theorem drain_append_aux (hreq : List Nat → Bool × Nat) (extra : List Nat) :
    ∀ n tcplen buf, buf.length ≤ n →
      drain hreq tcplen (buf ++ extra) =
        if (drain hreq tcplen buf).ok then
          appendU (drain hreq tcplen buf).units
            (drain hreq (drain hreq tcplen buf).tcplen
              ((drain hreq tcplen buf).buffer ++ extra))
        else
          ⟨false, (drain hreq tcplen buf).tcplen,
            (drain hreq tcplen buf).buffer ++ extra,
            (drain hreq tcplen buf).units⟩ := by
  intro n
  induction n with
  | zero =>
    intro tcplen buf hle
    have hb : buf = [] := by
      cases buf with
      | nil => rfl
      | cons x xs => simp at hle
    subst hb
    simp [drain_nil, appendU_nil]
  | succ n ih =>
    intro tcplen buf hle
    cases hbuf : buf with
    | nil => simp [drain_nil, appendU_nil]
    | cons b bs =>
      subst hbuf
      by_cases ht : tcplen ≠ 0
      · by_cases hl : tcplen ≤ (b :: bs).length
        · have hl2 : tcplen ≤ ((b :: bs) ++ extra).length := by
            simp at hl ⊢
            omega
          have hd : drain hreq tcplen (b :: bs)
              = consU (.block ((b :: bs).take tcplen))
                  (drain hreq 0 ((b :: bs).drop tcplen)) := by
            rw [drain_eq hreq tcplen (b :: bs), if_neg (by simp), if_pos ht,
              if_pos hl]
          rw [drain_eq hreq tcplen ((b :: bs) ++ extra), if_neg (by simp),
            if_pos ht, if_pos hl2, List.take_append_of_le_length hl,
            List.drop_append_of_le_length hl, hd]
          have hlen : ((b :: bs).drop tcplen).length ≤ n := by
            simp at hle ⊢
            omega
          rw [ih 0 ((b :: bs).drop tcplen) hlen]
          by_cases hok : (drain hreq 0 ((b :: bs).drop tcplen)).ok
          · rw [if_pos hok]
            rw [consU_appendU]
            simp only [consU, appendU]
            rw [if_pos (show (drain hreq 0 ((b :: bs).drop tcplen)).ok = true
              from hok)]
          · rw [if_neg hok]
            simp only [Bool.not_eq_true] at hok
            simp [consU, appendU, hok]
        · have hd : drain hreq tcplen (b :: bs)
              = ⟨true, tcplen, b :: bs, []⟩ := by
            rw [drain_eq hreq tcplen (b :: bs), if_neg (by simp), if_pos ht,
              if_neg hl]
          rw [hd]
          simp [appendU_nil]
      · simp only [Ne, not_not] at ht
        subst ht
        cases hs : splitLine (b :: bs) with
        | none =>
          have hd : drain hreq 0 (b :: bs) = ⟨true, 0, b :: bs, []⟩ := by
            rw [drain_eq hreq 0 (b :: bs), if_neg (by simp),
              if_neg (show ¬(0 : Nat) ≠ 0 by simp), hs]
          rw [hd]
          simp [appendU_nil]
        | some p =>
          cases p with
          | mk ln rest =>
            have hs2 : splitLine ((b :: bs) ++ extra) = some (ln, rest ++ extra) :=
              splitLine_append_some extra hs
            have hd : drain hreq 0 (b :: bs)
                = if (hreq ln).1 then
                    consU (.line ln) (drain hreq (hreq ln).2 rest)
                  else ⟨false, (hreq ln).2, rest, [.line ln]⟩ := by
              rw [drain_eq hreq 0 (b :: bs), if_neg (by simp),
                if_neg (show ¬(0 : Nat) ≠ 0 by simp), hs]
            have hd2 : drain hreq 0 ((b :: bs) ++ extra)
                = if (hreq ln).1 then
                    consU (.line ln) (drain hreq (hreq ln).2 (rest ++ extra))
                  else ⟨false, (hreq ln).2, rest ++ extra, [.line ln]⟩ := by
              rw [drain_eq hreq 0 ((b :: bs) ++ extra), if_neg (by simp),
                if_neg (show ¬(0 : Nat) ≠ 0 by simp), hs2]
            by_cases hv : (hreq ln).1
            · rw [if_pos hv] at hd hd2
              rw [hd2, hd]
              have hlen : rest.length ≤ n := by
                have := splitLine_some_length hs
                simp at this hle
                omega
              rw [ih (hreq ln).2 rest hlen]
              by_cases hok : (drain hreq (hreq ln).2 rest).ok
              · rw [if_pos hok]
                rw [consU_appendU]
                simp only [consU, appendU]
                rw [if_pos (show (drain hreq (hreq ln).2 rest).ok = true
                  from hok)]
              · rw [if_neg hok]
                simp only [Bool.not_eq_true] at hok
                simp [consU, appendU, hok]
            · rw [if_neg hv] at hd hd2
              rw [hd2, hd]
              simp [appendU]

theorem drain_append (hreq : List Nat → Bool × Nat) (tcplen : Nat)
    (buf extra : List Nat) :
    drain hreq tcplen (buf ++ extra) =
      if (drain hreq tcplen buf).ok then
        appendU (drain hreq tcplen buf).units
          (drain hreq (drain hreq tcplen buf).tcplen
            ((drain hreq tcplen buf).buffer ++ extra))
      else
        ⟨false, (drain hreq tcplen buf).tcplen,
          (drain hreq tcplen buf).buffer ++ extra,
          (drain hreq tcplen buf).units⟩ :=
  drain_append_aux hreq extra buf.length tcplen buf le_rfl

/-- The bytes a delivered unit consumed from the accumulation buffer: a block
consumed exactly its bytes, a line consumed its content plus the newline
terminator that `evbuffer_readline` stripped. -/
def unitBytes : MsgUnit → List Nat
  | .block b => b
  | .line l => l ++ [NL]

theorem drain_ok_stuck_aux (hreq : List Nat → Bool × Nat) :
    ∀ n tcplen buf, buf.length ≤ n → (drain hreq tcplen buf).ok = true →
      drain hreq (drain hreq tcplen buf).tcplen (drain hreq tcplen buf).buffer
        = ⟨true, (drain hreq tcplen buf).tcplen,
            (drain hreq tcplen buf).buffer, []⟩ := by
  intro n
  induction n with
  | zero =>
    intro tcplen buf hle _
    have hb : buf = [] := by
      cases buf with
      | nil => rfl
      | cons x xs => simp at hle
    subst hb
    simp [drain_nil]
  | succ n ih =>
    intro tcplen buf hle hok
    cases hbuf : buf with
    | nil => simp [drain_nil]
    | cons b bs =>
      subst hbuf
      by_cases ht : tcplen ≠ 0
      · by_cases hl : tcplen ≤ (b :: bs).length
        · have hd : drain hreq tcplen (b :: bs)
              = consU (.block ((b :: bs).take tcplen))
                  (drain hreq 0 ((b :: bs).drop tcplen)) := by
            rw [drain_eq hreq tcplen (b :: bs), if_neg (by simp), if_pos ht,
              if_pos hl]
          rw [hd] at hok ⊢
          simp only [consU] at hok ⊢
          have hlen : ((b :: bs).drop tcplen).length ≤ n := by
            simp at hle ⊢
            omega
          exact ih 0 ((b :: bs).drop tcplen) hlen hok
        · have hd : drain hreq tcplen (b :: bs)
              = ⟨true, tcplen, b :: bs, []⟩ := by
            rw [drain_eq hreq tcplen (b :: bs), if_neg (by simp), if_pos ht,
              if_neg hl]
          rw [hd]
          rw [drain_eq hreq tcplen (b :: bs), if_neg (by simp), if_pos ht,
            if_neg hl]
      · simp only [Ne, not_not] at ht
        subst ht
        cases hs : splitLine (b :: bs) with
        | none =>
          have hd : drain hreq 0 (b :: bs) = ⟨true, 0, b :: bs, []⟩ := by
            rw [drain_eq hreq 0 (b :: bs), if_neg (by simp),
              if_neg (show ¬(0 : Nat) ≠ 0 by simp), hs]
          rw [hd]
          exact hd
        | some p =>
          cases p with
          | mk ln rest =>
            have hd : drain hreq 0 (b :: bs)
                = if (hreq ln).1 then
                    consU (.line ln) (drain hreq (hreq ln).2 rest)
                  else ⟨false, (hreq ln).2, rest, [.line ln]⟩ := by
              rw [drain_eq hreq 0 (b :: bs), if_neg (by simp),
                if_neg (show ¬(0 : Nat) ≠ 0 by simp), hs]
            by_cases hv : (hreq ln).1
            · rw [if_pos hv] at hd
              rw [hd] at hok ⊢
              simp only [consU] at hok ⊢
              have hlen : rest.length ≤ n := by
                have := splitLine_some_length hs
                simp at this hle
                omega
              exact ih (hreq ln).2 rest hlen hok
            · rw [if_neg hv] at hd
              rw [hd] at hok
              simp at hok

theorem drain_ok_stuck (hreq : List Nat → Bool × Nat) (tcplen : Nat)
    (buf : List Nat) (hok : (drain hreq tcplen buf).ok = true) :
    drain hreq (drain hreq tcplen buf).tcplen (drain hreq tcplen buf).buffer
      = ⟨true, (drain hreq tcplen buf).tcplen,
          (drain hreq tcplen buf).buffer, []⟩ :=
  drain_ok_stuck_aux hreq buf.length tcplen buf le_rfl hok

theorem drain_conserve_aux (hreq : List Nat → Bool × Nat) :
    ∀ n tcplen buf, buf.length ≤ n →
      buf = ((drain hreq tcplen buf).units.map unitBytes).flatten
        ++ (drain hreq tcplen buf).buffer := by
  intro n
  induction n with
  | zero =>
    intro tcplen buf hle
    have hb : buf = [] := by
      cases buf with
      | nil => rfl
      | cons x xs => simp at hle
    subst hb
    simp [drain_nil]
  | succ n ih =>
    intro tcplen buf hle
    cases hbuf : buf with
    | nil => simp [drain_nil]
    | cons b bs =>
      subst hbuf
      by_cases ht : tcplen ≠ 0
      · by_cases hl : tcplen ≤ (b :: bs).length
        · have hd : drain hreq tcplen (b :: bs)
              = consU (.block ((b :: bs).take tcplen))
                  (drain hreq 0 ((b :: bs).drop tcplen)) := by
            rw [drain_eq hreq tcplen (b :: bs), if_neg (by simp), if_pos ht,
              if_pos hl]
          rw [hd]
          simp only [consU, List.map_cons, List.flatten_cons, unitBytes]
          have hlen : ((b :: bs).drop tcplen).length ≤ n := by
            simp at hle ⊢
            omega
          conv_lhs => rw [← List.take_append_drop tcplen (b :: bs)]
          rw [List.append_assoc]
          exact congrArg _ (ih 0 ((b :: bs).drop tcplen) hlen)
        · have hd : drain hreq tcplen (b :: bs)
              = ⟨true, tcplen, b :: bs, []⟩ := by
            rw [drain_eq hreq tcplen (b :: bs), if_neg (by simp), if_pos ht,
              if_neg hl]
          rw [hd]
          simp
      · simp only [Ne, not_not] at ht
        subst ht
        cases hs : splitLine (b :: bs) with
        | none =>
          have hd : drain hreq 0 (b :: bs) = ⟨true, 0, b :: bs, []⟩ := by
            rw [drain_eq hreq 0 (b :: bs), if_neg (by simp),
              if_neg (show ¬(0 : Nat) ≠ 0 by simp), hs]
          rw [hd]
          simp
        | some p =>
          cases p with
          | mk ln rest =>
            have happ : (b :: bs) = ln ++ NL :: rest := splitLine_some_append hs
            have hd : drain hreq 0 (b :: bs)
                = if (hreq ln).1 then
                    consU (.line ln) (drain hreq (hreq ln).2 rest)
                  else ⟨false, (hreq ln).2, rest, [.line ln]⟩ := by
              rw [drain_eq hreq 0 (b :: bs), if_neg (by simp),
                if_neg (show ¬(0 : Nat) ≠ 0 by simp), hs]
            by_cases hv : (hreq ln).1
            · rw [if_pos hv] at hd
              rw [hd]
              simp only [consU, List.map_cons, List.flatten_cons, unitBytes]
              have hlen : rest.length ≤ n := by
                have := splitLine_some_length hs
                simp at this hle
                omega
              rw [happ, List.append_assoc]
              have h2 : NL :: rest = [NL] ++ rest := rfl
              rw [h2, ← List.append_assoc ln [NL]]
              exact congrArg (fun x => ln ++ [NL] ++ x)
                (ih (hreq ln).2 rest hlen)
            · rw [if_neg hv] at hd
              rw [hd]
              simp only [List.map_cons, List.flatten_cons, unitBytes,
                List.map_nil, List.flatten_nil, List.append_nil]
              rw [happ]
              simp

theorem drain_conserve (hreq : List Nat → Bool × Nat) (tcplen : Nat)
    (buf : List Nat) :
    buf = ((drain hreq tcplen buf).units.map unitBytes).flatten
      ++ (drain hreq tcplen buf).buffer :=
  drain_conserve_aux hreq buf.length tcplen buf le_rfl

theorem drain_line_no_NL_aux (hreq : List Nat → Bool × Nat) :
    ∀ n tcplen buf ln, buf.length ≤ n →
      MsgUnit.line ln ∈ (drain hreq tcplen buf).units → NL ∉ ln := by
  intro n
  induction n with
  | zero =>
    intro tcplen buf ln hle hmem
    have hb : buf = [] := by
      cases buf with
      | nil => rfl
      | cons x xs => simp at hle
    subst hb
    simp [drain_nil] at hmem
  | succ n ih =>
    intro tcplen buf ln hle hmem
    cases hbuf : buf with
    | nil =>
      subst hbuf
      simp [drain_nil] at hmem
    | cons b bs =>
      subst hbuf
      by_cases ht : tcplen ≠ 0
      · by_cases hl : tcplen ≤ (b :: bs).length
        · have hd : drain hreq tcplen (b :: bs)
              = consU (.block ((b :: bs).take tcplen))
                  (drain hreq 0 ((b :: bs).drop tcplen)) := by
            rw [drain_eq hreq tcplen (b :: bs), if_neg (by simp), if_pos ht,
              if_pos hl]
          rw [hd] at hmem
          simp only [consU, List.mem_cons] at hmem
          rcases hmem with h1 | h1
          · simp at h1
          · have hlen : ((b :: bs).drop tcplen).length ≤ n := by
              simp at hle ⊢
              omega
            exact ih 0 ((b :: bs).drop tcplen) ln hlen h1
        · have hd : drain hreq tcplen (b :: bs)
              = ⟨true, tcplen, b :: bs, []⟩ := by
            rw [drain_eq hreq tcplen (b :: bs), if_neg (by simp), if_pos ht,
              if_neg hl]
          rw [hd] at hmem
          simp at hmem
      · simp only [Ne, not_not] at ht
        subst ht
        cases hs : splitLine (b :: bs) with
        | none =>
          have hd : drain hreq 0 (b :: bs) = ⟨true, 0, b :: bs, []⟩ := by
            rw [drain_eq hreq 0 (b :: bs), if_neg (by simp),
              if_neg (show ¬(0 : Nat) ≠ 0 by simp), hs]
          rw [hd] at hmem
          simp at hmem
        | some p =>
          cases p with
          | mk ln0 rest =>
            have hd : drain hreq 0 (b :: bs)
                = if (hreq ln0).1 then
                    consU (.line ln0) (drain hreq (hreq ln0).2 rest)
                  else ⟨false, (hreq ln0).2, rest, [.line ln0]⟩ := by
              rw [drain_eq hreq 0 (b :: bs), if_neg (by simp),
                if_neg (show ¬(0 : Nat) ≠ 0 by simp), hs]
            by_cases hv : (hreq ln0).1
            · rw [if_pos hv] at hd
              rw [hd] at hmem
              simp only [consU, List.mem_cons] at hmem
              rcases hmem with h1 | h1
              · have : ln = ln0 := by
                  injection h1
                subst this
                exact splitLine_some_not_mem hs
              · have hlen : rest.length ≤ n := by
                  have := splitLine_some_length hs
                  simp at this hle
                  omega
                exact ih (hreq ln0).2 rest ln hlen h1
            · rw [if_neg hv] at hd
              rw [hd] at hmem
              simp at hmem
              subst hmem
              exact splitLine_some_not_mem hs

theorem drain_line_no_NL (hreq : List Nat → Bool × Nat) (tcplen : Nat)
    (buf ln : List Nat) (hmem : MsgUnit.line ln ∈ (drain hreq tcplen buf).units) :
    NL ∉ ln :=
  drain_line_no_NL_aux hreq buf.length tcplen buf ln le_rfl hmem

theorem drain_reject_last_aux (hreq : List Nat → Bool × Nat) :
    ∀ n tcplen buf ln, buf.length ≤ n →
      MsgUnit.line ln ∈ (drain hreq tcplen buf).units → (hreq ln).1 = false →
      (drain hreq tcplen buf).ok = false ∧
        ∃ us, (drain hreq tcplen buf).units = us ++ [MsgUnit.line ln] := by
  intro n
  induction n with
  | zero =>
    intro tcplen buf ln hle hmem _
    have hb : buf = [] := by
      cases buf with
      | nil => rfl
      | cons x xs => simp at hle
    subst hb
    simp [drain_nil] at hmem
  | succ n ih =>
    intro tcplen buf ln hle hmem hrej
    cases hbuf : buf with
    | nil =>
      subst hbuf
      simp [drain_nil] at hmem
    | cons b bs =>
      subst hbuf
      by_cases ht : tcplen ≠ 0
      · by_cases hl : tcplen ≤ (b :: bs).length
        · have hd : drain hreq tcplen (b :: bs)
              = consU (.block ((b :: bs).take tcplen))
                  (drain hreq 0 ((b :: bs).drop tcplen)) := by
            rw [drain_eq hreq tcplen (b :: bs), if_neg (by simp), if_pos ht,
              if_pos hl]
          rw [hd] at hmem ⊢
          simp only [consU, List.mem_cons] at hmem
          rcases hmem with h1 | h1
          · simp at h1
          · have hlen : ((b :: bs).drop tcplen).length ≤ n := by
              simp at hle ⊢
              omega
            obtain ⟨hok, us, hus⟩ := ih 0 ((b :: bs).drop tcplen) ln hlen h1 hrej
            refine ⟨hok, MsgUnit.block ((b :: bs).take tcplen) :: us, ?_⟩
            simp [consU, hus]
        · have hd : drain hreq tcplen (b :: bs)
              = ⟨true, tcplen, b :: bs, []⟩ := by
            rw [drain_eq hreq tcplen (b :: bs), if_neg (by simp), if_pos ht,
              if_neg hl]
          rw [hd] at hmem
          simp at hmem
      · simp only [Ne, not_not] at ht
        subst ht
        cases hs : splitLine (b :: bs) with
        | none =>
          have hd : drain hreq 0 (b :: bs) = ⟨true, 0, b :: bs, []⟩ := by
            rw [drain_eq hreq 0 (b :: bs), if_neg (by simp),
              if_neg (show ¬(0 : Nat) ≠ 0 by simp), hs]
          rw [hd] at hmem
          simp at hmem
        | some p =>
          cases p with
          | mk ln0 rest =>
            have hd : drain hreq 0 (b :: bs)
                = if (hreq ln0).1 then
                    consU (.line ln0) (drain hreq (hreq ln0).2 rest)
                  else ⟨false, (hreq ln0).2, rest, [.line ln0]⟩ := by
              rw [drain_eq hreq 0 (b :: bs), if_neg (by simp),
                if_neg (show ¬(0 : Nat) ≠ 0 by simp), hs]
            by_cases hv : (hreq ln0).1
            · rw [if_pos hv] at hd
              rw [hd] at hmem ⊢
              simp only [consU, List.mem_cons] at hmem
              rcases hmem with h1 | h1
              · have : ln = ln0 := by
                  injection h1
                subst this
                rw [hv] at hrej
                simp at hrej
              · have hlen : rest.length ≤ n := by
                  have := splitLine_some_length hs
                  simp at this hle
                  omega
                obtain ⟨hok, us, hus⟩ := ih (hreq ln0).2 rest ln hlen h1 hrej
                refine ⟨hok, MsgUnit.line ln0 :: us, ?_⟩
                simp [consU, hus]
            · rw [if_neg hv] at hd
              rw [hd] at hmem ⊢
              simp at hmem
              subst hmem
              exact ⟨rfl, [], rfl⟩

theorem drain_reject_last (hreq : List Nat → Bool × Nat) (tcplen : Nat)
    (buf : List Nat) (ln : List Nat)
    (hmem : MsgUnit.line ln ∈ (drain hreq tcplen buf).units)
    (hrej : (hreq ln).1 = false) :
    (drain hreq tcplen buf).ok = false ∧
      ∃ us, (drain hreq tcplen buf).units = us ++ [MsgUnit.line ln] :=
  drain_reject_last_aux hreq buf.length tcplen buf ln le_rfl hmem hrej

/-- The scratch-transfer `do { ... } while(inlen)` loop of `receive_meta` in
the plaintext (`!c->status.decryptin`) case, with an explicit fuel argument
making the recursion structural (the wrapper `transferLoop` supplies adequate
fuel; every iteration consumes the non-empty segment `(takeSeg scratch).1`).
Each iteration copies the scratch segment up to and including the first
newline (or the whole remainder) into the accumulation buffer, then runs the
drain loop; a `false` verdict from `receive_request` aborts the whole call,
and the loop exits when the scratch bytes of this read are consumed. -/
def transferLoopF (hreq : List Nat → Bool × Nat) :
    Nat → Nat → List Nat → List Nat → RState
  | 0, tcplen, buffer, scratch => drain hreq tcplen (buffer ++ (takeSeg scratch).1)
  | fuel + 1, tcplen, buffer, scratch =>
    if (drain hreq tcplen (buffer ++ (takeSeg scratch).1)).ok = false then
      drain hreq tcplen (buffer ++ (takeSeg scratch).1)
    else if (takeSeg scratch).2 = [] then
      drain hreq tcplen (buffer ++ (takeSeg scratch).1)
    else
      appendU (drain hreq tcplen (buffer ++ (takeSeg scratch).1)).units
        (transferLoopF hreq fuel
          (drain hreq tcplen (buffer ++ (takeSeg scratch).1)).tcplen
          (drain hreq tcplen (buffer ++ (takeSeg scratch).1)).buffer
          ((takeSeg scratch).2))

/-- The scratch-transfer loop with the fuel instantiated to its own
termination measure. -/
def transferLoop (hreq : List Nat → Bool × Nat) (tcplen : Nat)
    (buffer scratch : List Nat) : RState :=
  transferLoopF hreq scratch.length tcplen buffer scratch

theorem transferLoopF_drain (hreq : List Nat → Bool × Nat) :
    ∀ fuel tcplen buffer scratch, scratch.length ≤ fuel + 1 →
      (transferLoopF hreq fuel tcplen buffer scratch).ok
          = (drain hreq tcplen (buffer ++ scratch)).ok
        ∧ (transferLoopF hreq fuel tcplen buffer scratch).units
          = (drain hreq tcplen (buffer ++ scratch)).units
        ∧ ((transferLoopF hreq fuel tcplen buffer scratch).ok = true →
            transferLoopF hreq fuel tcplen buffer scratch
              = drain hreq tcplen (buffer ++ scratch)) := by
  intro fuel
  induction fuel with
  | zero =>
    intro tcplen buffer scratch hle
    by_cases hrest : (takeSeg scratch).2 = []
    · have hseg : (takeSeg scratch).1 = scratch := by
        have := takeSeg_append scratch
        rw [hrest] at this
        simpa using this
      simp [transferLoopF, hseg]
    · exfalso
      have := takeSeg_snd_length hrest
      have h0 : (takeSeg scratch).2.length = 0 := by omega
      exact hrest (List.eq_nil_of_length_eq_zero h0)
  | succ fuel ih =>
    intro tcplen buffer scratch hle
    have hsplit : (takeSeg scratch).1 ++ (takeSeg scratch).2 = scratch :=
      takeSeg_append scratch
    have hassoc : buffer ++ scratch
        = (buffer ++ (takeSeg scratch).1) ++ (takeSeg scratch).2 := by
      rw [List.append_assoc, hsplit]
    by_cases hok : (drain hreq tcplen (buffer ++ (takeSeg scratch).1)).ok
    · by_cases hrest : (takeSeg scratch).2 = []
      · have hseg : (takeSeg scratch).1 = scratch := by
          have := takeSeg_append scratch
          rw [hrest] at this
          simpa using this
        have hT : transferLoopF hreq (fuel + 1) tcplen buffer scratch
            = drain hreq tcplen (buffer ++ (takeSeg scratch).1) := by
          rw [transferLoopF, if_neg (by simp [hok]), if_pos hrest]
        rw [hT, hseg]
        exact ⟨rfl, rfl, fun _ => rfl⟩
      · have hT : transferLoopF hreq (fuel + 1) tcplen buffer scratch
            = appendU (drain hreq tcplen (buffer ++ (takeSeg scratch).1)).units
                (transferLoopF hreq fuel
                  (drain hreq tcplen (buffer ++ (takeSeg scratch).1)).tcplen
                  (drain hreq tcplen (buffer ++ (takeSeg scratch).1)).buffer
                  ((takeSeg scratch).2)) := by
          rw [transferLoopF, if_neg (by simp [hok]), if_neg hrest]
        have hR : drain hreq tcplen (buffer ++ scratch)
            = appendU (drain hreq tcplen (buffer ++ (takeSeg scratch).1)).units
                (drain hreq
                  (drain hreq tcplen (buffer ++ (takeSeg scratch).1)).tcplen
                  ((drain hreq tcplen (buffer ++ (takeSeg scratch).1)).buffer
                    ++ (takeSeg scratch).2)) := by
          rw [hassoc, drain_append hreq tcplen (buffer ++ (takeSeg scratch).1)
            ((takeSeg scratch).2), if_pos hok]
        have hlen2 : (takeSeg scratch).2.length ≤ fuel + 1 := by
          have := takeSeg_snd_length hrest
          omega
        obtain ⟨e1, e2, e3⟩ := ih
          (drain hreq tcplen (buffer ++ (takeSeg scratch).1)).tcplen
          (drain hreq tcplen (buffer ++ (takeSeg scratch).1)).buffer
          ((takeSeg scratch).2) hlen2
        refine ⟨?_, ?_, ?_⟩
        · rw [hT, hR]
          simpa [appendU] using e1
        · rw [hT, hR]
          simp [appendU]
          exact e2
        · intro hTok
          rw [hT, hR]
          rw [hT] at hTok
          simp only [appendU] at hTok
          have := e3 hTok
          rw [this]
    · simp only [Bool.not_eq_true] at hok
      have hT : transferLoopF hreq (fuel + 1) tcplen buffer scratch
          = drain hreq tcplen (buffer ++ (takeSeg scratch).1) := by
        rw [transferLoopF, if_pos hok]
      have hR : drain hreq tcplen (buffer ++ scratch)
          = ⟨false, (drain hreq tcplen (buffer ++ (takeSeg scratch).1)).tcplen,
              (drain hreq tcplen (buffer ++ (takeSeg scratch).1)).buffer
                ++ (takeSeg scratch).2,
              (drain hreq tcplen (buffer ++ (takeSeg scratch).1)).units⟩ := by
        rw [hassoc, drain_append hreq tcplen (buffer ++ (takeSeg scratch).1)
          ((takeSeg scratch).2), if_neg (by simp [hok])]
      refine ⟨?_, ?_, ?_⟩
      · rw [hT, hR, hok]
      · rw [hT, hR]
      · intro hTok
        rw [hT] at hTok
        rw [hTok] at hok
        simp at hok

theorem transferLoop_drain (hreq : List Nat → Bool × Nat) (tcplen : Nat)
    (buffer scratch : List Nat) :
    (transferLoop hreq tcplen buffer scratch).ok
        = (drain hreq tcplen (buffer ++ scratch)).ok
      ∧ (transferLoop hreq tcplen buffer scratch).units
        = (drain hreq tcplen (buffer ++ scratch)).units
      ∧ ((transferLoop hreq tcplen buffer scratch).ok = true →
          transferLoop hreq tcplen buffer scratch
            = drain hreq tcplen (buffer ++ scratch)) :=
  transferLoopF_drain hreq scratch.length tcplen buffer scratch
    (by omega)

/-- Outcome of the single `recv(c->socket, inbuf, sizeof inbuf, 0)` call of
one `receive_meta` invocation: the returned count `inlen`, the value of
`errno` after the call, and the bytes placed in the scratch buffer (used only
when `inlen > 0`, in which case it is the list of the `inlen` received
bytes). -/
structure ReadOutcome where
  inlen : Int
  errno : Nat
  bytes : List Nat
deriving Repr

/-- The `receive_meta` function.  Parameters model its collaborators:
`wb` is the `sockwouldblock(sockerrno)` predicate, `dec` the
`cipher_decrypt` transform of `c->incipher` (`none` on cipher failure,
otherwise the produced output whose length the code requires to equal the
input length before advancing the buffer), `hreq` the `receive_request`
verdict (paired with the `c->tcplen` it leaves behind), `decryptin` the
`c->status.decryptin` flag, `tcplen` and `buffer` the incoming connection
state, and `rd` the outcome of the one `recv` call. -/
def receive_meta (wb : Nat → Bool) (dec : List Nat → Option (List Nat))
    (hreq : List Nat → Bool × Nat) (decryptin : Bool)
    (tcplen : Nat) (buffer : List Nat) (rd : ReadOutcome) : RState :=
  if rd.inlen ≤ 0 then
    if rd.inlen = 0 ∨ rd.errno = 0 then ⟨false, tcplen, buffer, []⟩
    else if wb rd.errno then ⟨true, tcplen, buffer, []⟩
    else ⟨false, tcplen, buffer, []⟩
  else
    if decryptin then
      match dec rd.bytes with
      | none => ⟨false, tcplen, buffer, []⟩
      | some out =>
        if out.length = rd.bytes.length then drain hreq tcplen (buffer ++ out)
        else ⟨false, tcplen, buffer, []⟩
    else
      transferLoop hreq tcplen buffer rd.bytes

/-- The observable outcome of an invocation: the returned boolean, the
delivered units, and — when the call succeeded, so the connection stays up —
the surviving connection state. -/
def RState.obs (r : RState) : Bool × List MsgUnit × Option (Nat × List Nat) :=
  (r.ok, r.units, if r.ok then some (r.tcplen, r.buffer) else none)

/-- A sequence of `receive_meta` invocations on one connection in the
unencrypted (`decryptin = false`) inbound direction, one per successive
transport read, stopping (as the event loop does, tearing the connection
down) after a failing invocation.  Records the units delivered across all
invocations. -/
def runReads (wb : Nat → Bool) (dec : List Nat → Option (List Nat))
    (hreq : List Nat → Bool × Nat) :
    Nat → List Nat → List (List Nat) → RState
  | tcplen, buffer, [] => ⟨true, tcplen, buffer, []⟩
  | tcplen, buffer, r :: rs =>
    if (receive_meta wb dec hreq false tcplen buffer
        ⟨(r.length : Int), 0, r⟩).ok then
      appendU (receive_meta wb dec hreq false tcplen buffer
          ⟨(r.length : Int), 0, r⟩).units
        (runReads wb dec hreq
          (receive_meta wb dec hreq false tcplen buffer
            ⟨(r.length : Int), 0, r⟩).tcplen
          (receive_meta wb dec hreq false tcplen buffer
            ⟨(r.length : Int), 0, r⟩).buffer
          rs)
    else
      receive_meta wb dec hreq false tcplen buffer ⟨(r.length : Int), 0, r⟩

/-- Result of one `send_meta` call: either the process was aborted by the
null-connection check, or the call returned the given boolean. -/
inductive SendOutcome where
  | aborted
  | ret : Bool → SendOutcome
deriving DecidableEq, Repr

/-- The connection fields `send_meta` and `broadcast_meta` consult.  `id`
models the object identity (the pointer value) used by the `c != from`
comparison in `broadcast_meta`; `active` is `c->status.active` and
`encryptout` is `c->status.encryptout`. -/
structure connection_t where
  id : Nat
  active : Bool
  encryptout : Bool
deriving DecidableEq, Repr

/-- The `send_meta` function.  `enc` models the `cipher_encrypt` transform of
`c->outcipher` (`none` on cipher failure, otherwise the produced output,
whose length the code requires to equal the input length); `wr` models
whether the `write(c->socket, ...)` syscall succeeds — the code never
inspects this result.  `c = none` models a NULL `connection_t *`.  Returns
the call outcome together with the list of buffers written to the
transport. -/
def send_meta (enc : List Nat → Option (List Nat)) (wr : Bool) :
    Option connection_t → List Nat → SendOutcome × List (List Nat)
  | none, _ => (.aborted, [])
  | some c, buffer =>
    if c.encryptout then
      match enc buffer with
      | none => (.ret false, [])
      | some out =>
        if out.length = buffer.length then (.ret true, [out])
        else (.ret false, [])
    else (.ret true, [buffer])

/-- The `broadcast_meta` function: walks the `connection_tree` (given as the
list of its nodes in iteration order) and calls `send_meta` for every
connection other than the originator whose `status.active` is set.  `encOf`
and `wrOf` give each connection's cipher transform and write-syscall fate.
Returns the trace of `send_meta` calls made, in order. -/
def broadcast_meta (encOf : connection_t → List Nat → Option (List Nat))
    (wrOf : connection_t → Bool) (from_ : connection_t) (buffer : List Nat) :
    List connection_t → List (connection_t × (SendOutcome × List (List Nat)))
  | [] => []
  | c :: rest =>
    if c ≠ from_ ∧ c.active = true then
      (c, send_meta (encOf c) (wrOf c) (some c) buffer)
        :: broadcast_meta encOf wrOf from_ buffer rest
    else broadcast_meta encOf wrOf from_ buffer rest

theorem receive_meta_plain (wb : Nat → Bool) (dec : List Nat → Option (List Nat))
    (hreq : List Nat → Bool × Nat) (tcplen : Nat) (buffer : List Nat)
    (r : List Nat) (h : r ≠ []) :
    receive_meta wb dec hreq false tcplen buffer ⟨(r.length : Int), 0, r⟩
      = transferLoop hreq tcplen buffer r := by
  have hpos : ¬((r.length : Int) ≤ 0) := by
    have : 0 < r.length := List.length_pos.mpr h
    omega
  unfold receive_meta
  rw [if_neg hpos]
  simp

theorem runReads_drain (wb : Nat → Bool) (dec : List Nat → Option (List Nat))
    (hreq : List Nat → Bool × Nat) :
    ∀ reads tcplen buffer, (∀ r ∈ reads, r ≠ []) →
      (reads = [] → drain hreq tcplen buffer = ⟨true, tcplen, buffer, []⟩) →
      (runReads wb dec hreq tcplen buffer reads).ok
          = (drain hreq tcplen (buffer ++ reads.flatten)).ok
        ∧ (runReads wb dec hreq tcplen buffer reads).units
          = (drain hreq tcplen (buffer ++ reads.flatten)).units
        ∧ ((runReads wb dec hreq tcplen buffer reads).ok = true →
            runReads wb dec hreq tcplen buffer reads
              = drain hreq tcplen (buffer ++ reads.flatten)) := by
  intro reads
  induction reads with
  | nil =>
    intro tcplen buffer _ hstuck
    have hd := hstuck rfl
    simp only [runReads, List.flatten_nil, List.append_nil, hd]
    simp
  | cons r rs ih =>
    intro tcplen buffer hne hstuck
    have hr : r ≠ [] := hne r (by simp)
    have hrs : ∀ x ∈ rs, x ≠ [] := fun x hx => hne x (by simp [hx])
    have hplain := receive_meta_plain wb dec hreq tcplen buffer r hr
    obtain ⟨t1, t2, t3⟩ := transferLoop_drain hreq tcplen buffer r
    have hflat : buffer ++ (r :: rs).flatten
        = (buffer ++ r) ++ rs.flatten := by
      simp
    by_cases hok : (receive_meta wb dec hreq false tcplen buffer
        ⟨(r.length : Int), 0, r⟩).ok
    · have hfull : receive_meta wb dec hreq false tcplen buffer
          ⟨(r.length : Int), 0, r⟩ = drain hreq tcplen (buffer ++ r) := by
        rw [hplain]
        exact t3 (by rw [← hplain]; exact hok)
      have hRok : (drain hreq tcplen (buffer ++ r)).ok = true := by
        rw [← hfull]; exact hok
      have hstuck2 : rs = [] →
          drain hreq (drain hreq tcplen (buffer ++ r)).tcplen
              (drain hreq tcplen (buffer ++ r)).buffer
            = ⟨true, (drain hreq tcplen (buffer ++ r)).tcplen,
                (drain hreq tcplen (buffer ++ r)).buffer, []⟩ :=
        fun _ => drain_ok_stuck hreq tcplen (buffer ++ r) hRok
      obtain ⟨e1, e2, e3⟩ := ih (drain hreq tcplen (buffer ++ r)).tcplen
        (drain hreq tcplen (buffer ++ r)).buffer hrs hstuck2
      have hrun : runReads wb dec hreq tcplen buffer (r :: rs)
          = appendU (drain hreq tcplen (buffer ++ r)).units
              (runReads wb dec hreq (drain hreq tcplen (buffer ++ r)).tcplen
                (drain hreq tcplen (buffer ++ r)).buffer rs) := by
        simp only [runReads]
        rw [if_pos hok, hfull]
      have hRHS : drain hreq tcplen (buffer ++ (r :: rs).flatten)
          = appendU (drain hreq tcplen (buffer ++ r)).units
              (drain hreq (drain hreq tcplen (buffer ++ r)).tcplen
                ((drain hreq tcplen (buffer ++ r)).buffer ++ rs.flatten)) := by
        rw [hflat, drain_append hreq tcplen (buffer ++ r) rs.flatten,
          if_pos hRok]
      refine ⟨?_, ?_, ?_⟩
      · rw [hrun, hRHS]
        simpa [appendU] using e1
      · rw [hrun, hRHS]
        simp [appendU]
        exact e2
      · intro hokAll
        rw [hrun, hRHS]
        rw [hrun] at hokAll
        simp only [appendU] at hokAll
        rw [e3 hokAll]
    · simp only [Bool.not_eq_true] at hok
      have hrun : runReads wb dec hreq tcplen buffer (r :: rs)
          = receive_meta wb dec hreq false tcplen buffer
              ⟨(r.length : Int), 0, r⟩ := by
        simp only [runReads]
        rw [if_neg (by simp [hok])]
      have hRok : (drain hreq tcplen (buffer ++ r)).ok = false := by
        rw [← t1, ← hplain]
        exact hok
      have hRHS : drain hreq tcplen (buffer ++ (r :: rs).flatten)
          = ⟨false, (drain hreq tcplen (buffer ++ r)).tcplen,
              (drain hreq tcplen (buffer ++ r)).buffer ++ rs.flatten,
              (drain hreq tcplen (buffer ++ r)).units⟩ := by
        rw [hflat, drain_append hreq tcplen (buffer ++ r) rs.flatten,
          if_neg (by simp [hRok])]
      refine ⟨?_, ?_, ?_⟩
      · rw [hrun, hRHS, hplain, t1, hRok]
      · rw [hrun, hRHS, hplain, t2]
      · intro hokAll
        rw [hrun] at hokAll
        rw [hokAll] at hok
        simp at hok

theorem receive_meta_units_cases (wb : Nat → Bool)
    (dec : List Nat → Option (List Nat)) (hreq : List Nat → Bool × Nat)
    (decryptin : Bool) (tcplen : Nat) (buffer : List Nat) (rd : ReadOutcome) :
    (receive_meta wb dec hreq decryptin tcplen buffer rd).units = [] ∨
      ∃ appended,
        (receive_meta wb dec hreq decryptin tcplen buffer rd).units
            = (drain hreq tcplen (buffer ++ appended)).units
          ∧ (receive_meta wb dec hreq decryptin tcplen buffer rd).ok
            = (drain hreq tcplen (buffer ++ appended)).ok := by
  by_cases h0 : rd.inlen ≤ 0
  · left
    unfold receive_meta
    rw [if_pos h0]
    by_cases h1 : rd.inlen = 0 ∨ rd.errno = 0
    · rw [if_pos h1]
    · rw [if_neg h1]
      by_cases h2 : wb rd.errno
      · rw [if_pos h2]
      · rw [if_neg h2]
  · cases hdec : decryptin with
    | false =>
      right
      refine ⟨rd.bytes, ?_, ?_⟩
      · have hu : receive_meta wb dec hreq false tcplen buffer rd
            = transferLoop hreq tcplen buffer rd.bytes := by
          unfold receive_meta
          rw [if_neg h0]
          simp
        rw [hu]
        exact (transferLoop_drain hreq tcplen buffer rd.bytes).2.1
      · have hu : receive_meta wb dec hreq false tcplen buffer rd
            = transferLoop hreq tcplen buffer rd.bytes := by
          unfold receive_meta
          rw [if_neg h0]
          simp
        rw [hu]
        exact (transferLoop_drain hreq tcplen buffer rd.bytes).1
    | true =>
      cases hd : dec rd.bytes with
      | none =>
        left
        unfold receive_meta
        rw [if_neg h0]
        simp [hd]
      | some out =>
        by_cases hlen : out.length = rd.bytes.length
        · right
          refine ⟨out, ?_, ?_⟩ <;>
          · have hu : receive_meta wb dec hreq true tcplen buffer rd
                = drain hreq tcplen (buffer ++ out) := by
              unfold receive_meta
              rw [if_neg h0]
              simp [hd, hlen]
            rw [hu]
        · left
          unfold receive_meta
          rw [if_neg h0]
          simp [hd, hlen]

/-- C6: Request-handler rejection is fatal: whenever `receive_meta` hands a
complete line to `receive_request` and the handler returns false for it, the
invocation returns false and that line is the last unit delivered — no
further draining, no further deliveries. -/
theorem request_reject_fatal (wb : Nat → Bool)
    (dec : List Nat → Option (List Nat)) (hreq : List Nat → Bool × Nat)
    (decryptin : Bool) (tcplen : Nat) (buffer : List Nat) (rd : ReadOutcome)
    (ln : List Nat)
    (hmem : MsgUnit.line ln
      ∈ (receive_meta wb dec hreq decryptin tcplen buffer rd).units)
    (hrej : (hreq ln).1 = false) :
    (receive_meta wb dec hreq decryptin tcplen buffer rd).ok = false
      ∧ ∃ us, (receive_meta wb dec hreq decryptin tcplen buffer rd).units
          = us ++ [MsgUnit.line ln] := by
  rcases receive_meta_units_cases wb dec hreq decryptin tcplen buffer rd with
    hemp | ⟨appended, hu, ho⟩
  · rw [hemp] at hmem
    simp at hmem
  · rw [hu] at hmem
    obtain ⟨hok, us, hus⟩ :=
      drain_reject_last hreq tcplen (buffer ++ appended) ln hmem hrej
    exact ⟨by rw [ho, hok], us, by rw [hu, hus]⟩

/-- C9: Line-terminator convention: every line `receive_meta` delivers to
`receive_request` has its terminating newline removed — the modelled
`evbuffer_readline` strips the terminator, so no delivered line contains the
newline byte. -/
theorem line_terminator_stripped (wb : Nat → Bool)
    (dec : List Nat → Option (List Nat)) (hreq : List Nat → Bool × Nat)
    (decryptin : Bool) (tcplen : Nat) (buffer : List Nat) (rd : ReadOutcome)
    (ln : List Nat)
    (hmem : MsgUnit.line ln
      ∈ (receive_meta wb dec hreq decryptin tcplen buffer rd).units) :
    NL ∉ ln := by
  rcases receive_meta_units_cases wb dec hreq decryptin tcplen buffer rd with
    hemp | ⟨appended, hu, _⟩
  · rw [hemp] at hmem
    simp at hmem
  · rw [hu] at hmem
    exact drain_line_no_NL hreq tcplen (buffer ++ appended) ln hmem

/-- C1: Fragmentation independence of the demultiplexer: for a byte stream
arriving unencrypted, any two splittings of the stream into successive
(non-empty) transport reads make the sequence of `receive_meta` invocations
deliver the same units to the handlers, return the same verdicts, and leave
the same connection state; and the bytes consumed by the delivered units
followed by the bytes still buffered are exactly the initial buffer followed
by the stream — no byte reordered, duplicated, or dropped. -/
theorem receive_meta_fragmentation_independence
    (wb1 wb2 : Nat → Bool) (dec1 dec2 : List Nat → Option (List Nat))
    (hreq : List Nat → Bool × Nat) (tcplen : Nat) (buffer : List Nat)
    (reads1 reads2 : List (List Nat))
    (h1 : ∀ r ∈ reads1, r ≠ []) (h2 : ∀ r ∈ reads2, r ≠ [])
    (hf : reads1.flatten = reads2.flatten) :
    (runReads wb1 dec1 hreq tcplen buffer reads1).obs
        = (runReads wb2 dec2 hreq tcplen buffer reads2).obs
      ∧ ((runReads wb1 dec1 hreq tcplen buffer reads1).ok = true →
          buffer ++ reads1.flatten
            = ((runReads wb1 dec1 hreq tcplen buffer reads1).units.map
                unitBytes).flatten
              ++ (runReads wb1 dec1 hreq tcplen buffer reads1).buffer) := by
  by_cases hn1 : reads1 = []
  · have hflat2 : reads2.flatten = [] := by
      rw [← hf, hn1]
      rfl
    have hn2 : reads2 = [] := by
      cases reads2 with
      | nil => rfl
      | cons x xs =>
        exfalso
        have hx : x ≠ [] := h2 x (by simp)
        have : x ++ xs.flatten = [] := by simpa using hflat2
        exact hx (List.append_eq_nil.mp this).1
    subst hn1
    subst hn2
    simp [runReads]
  · have hn2 : reads2 ≠ [] := by
      intro hc
      subst hc
      have : reads1.flatten = [] := by simpa using hf
      cases reads1 with
      | nil => exact hn1 rfl
      | cons x xs =>
        have hx : x ≠ [] := h1 x (by simp)
        have : x ++ xs.flatten = [] := by simpa using this
        exact hx (List.append_eq_nil.mp this).1
    obtain ⟨a1, a2, a3⟩ := runReads_drain wb1 dec1 hreq reads1 tcplen buffer h1
      (fun h => absurd h hn1)
    obtain ⟨b1, b2, b3⟩ := runReads_drain wb2 dec2 hreq reads2 tcplen buffer h2
      (fun h => absurd h hn2)
    rw [← hf] at b1 b2 b3
    constructor
    · by_cases hok : (runReads wb1 dec1 hreq tcplen buffer reads1).ok
      · have hok2 : (runReads wb2 dec2 hreq tcplen buffer reads2).ok = true := by
          rw [b1, ← a1]
          exact hok
        rw [a3 hok, b3 hok2]
      · simp only [Bool.not_eq_true] at hok
        have hok2 : (runReads wb2 dec2 hreq tcplen buffer reads2).ok = false := by
          rw [b1, ← a1]
          exact hok
        unfold RState.obs
        rw [hok, hok2, a2, b2]
        simp
    · intro hok
      rw [a3 hok]
      exact drain_conserve hreq tcplen (buffer ++ reads1.flatten)

/-- C2: Block drain: with `c->tcplen` positive, the drain loop of
`receive_meta` delivers exactly the first `tcplen` buffered bytes to
`receive_tcppacket` once, removes them, resets `tcplen` to 0 and keeps
draining whenever at least `tcplen` bytes are buffered — so newline bytes
inside the block are never line-parsed, and a complete line following the
block reaches `receive_request` in the same invocation; with fewer bytes
buffered, draining stops with `tcplen` and the buffered bytes unchanged. -/
theorem tcplen_block_drain (hreq : List Nat → Bool × Nat) (tcplen : Nat)
    (buf : List Nat) (ht : tcplen ≠ 0) :
    (tcplen ≤ buf.length →
        drain hreq tcplen buf
          = consU (MsgUnit.block (buf.take tcplen))
              (drain hreq 0 (buf.drop tcplen)))
      ∧ (buf.length < tcplen →
          drain hreq tcplen buf = ⟨true, tcplen, buf, []⟩)
      ∧ (∀ (wb : Nat → Bool) (dec : List Nat → Option (List Nat))
          (rd : ReadOutcome) (ln rest : List Nat),
          0 < rd.inlen →
          tcplen ≤ (buf ++ rd.bytes).length →
          (buf ++ rd.bytes).drop tcplen = ln ++ NL :: rest →
          NL ∉ ln →
          ∃ us, (receive_meta wb dec hreq false tcplen buf rd).units
            = MsgUnit.block ((buf ++ rd.bytes).take tcplen)
              :: MsgUnit.line ln :: us) := by
  refine ⟨?_, ?_, ?_⟩
  · intro hle
    have hne : buf ≠ [] := by
      intro hc
      subst hc
      simp at hle
      omega
    rw [drain_eq hreq tcplen buf, if_neg hne, if_pos ht, if_pos hle]
  · intro hlt
    cases hb : buf with
    | nil => exact drain_nil hreq tcplen
    | cons x xs =>
      subst hb
      rw [drain_eq hreq tcplen (x :: xs), if_neg (by simp), if_pos ht,
        if_neg (by omega)]
  · intro wb dec rd ln rest hpos hle hdrop hnl
    have hu : (receive_meta wb dec hreq false tcplen buf rd).units
        = (drain hreq tcplen (buf ++ rd.bytes)).units := by
      have hplain : receive_meta wb dec hreq false tcplen buf rd
          = transferLoop hreq tcplen buf rd.bytes := by
        unfold receive_meta
        rw [if_neg (by omega)]
        simp
      rw [hplain]
      exact (transferLoop_drain hreq tcplen buf rd.bytes).2.1
    have hne : buf ++ rd.bytes ≠ [] := by
      intro hc
      rw [hc] at hle
      simp at hle
      omega
    have hblock : drain hreq tcplen (buf ++ rd.bytes)
        = consU (MsgUnit.block ((buf ++ rd.bytes).take tcplen))
            (drain hreq 0 ((buf ++ rd.bytes).drop tcplen)) := by
      rw [drain_eq hreq tcplen (buf ++ rd.bytes), if_neg hne, if_pos ht,
        if_pos hle]
    have hsplit : splitLine ((buf ++ rd.bytes).drop tcplen)
        = some (ln, rest) := by
      rw [hdrop]
      exact splitLine_cons_of_not_mem hnl
    have hline : drain hreq 0 ((buf ++ rd.bytes).drop tcplen)
        = if (hreq ln).1 then
            consU (MsgUnit.line ln) (drain hreq (hreq ln).2 rest)
          else ⟨false, (hreq ln).2, rest, [MsgUnit.line ln]⟩ := by
      rw [drain_eq hreq 0 ((buf ++ rd.bytes).drop tcplen),
        if_neg (by rw [hdrop]; simp),
        if_neg (show ¬(0 : Nat) ≠ 0 by simp), hsplit]
    rw [hu, hblock]
    by_cases hv : (hreq ln).1
    · rw [if_pos hv] at hline
      refine ⟨(drain hreq (hreq ln).2 rest).units, ?_⟩
      rw [hline]
      simp [consU]
    · rw [if_neg hv] at hline
      refine ⟨[], ?_⟩
      rw [hline]
      simp [consU]

/-- C4: Decryption failure is fatal and atomic: with `c->status.decryptin`
set, a `cipher_decrypt` failure or an output length different from the input
length makes `receive_meta` return false with no unit delivered to either
handler and the readable accumulation-buffer content unchanged; on success
the whole scratch buffer is decrypted and appended in one call — no
line-boundary search happens on the ciphertext — and only then is the drain
loop run. -/
theorem decrypt_failure_atomic (wb : Nat → Bool)
    (dec : List Nat → Option (List Nat)) (hreq : List Nat → Bool × Nat)
    (tcplen : Nat) (buffer : List Nat) (rd : ReadOutcome)
    (hpos : 0 < rd.inlen) :
    (dec rd.bytes = none →
        receive_meta wb dec hreq true tcplen buffer rd
          = ⟨false, tcplen, buffer, []⟩)
      ∧ (∀ out, dec rd.bytes = some out → out.length ≠ rd.bytes.length →
          receive_meta wb dec hreq true tcplen buffer rd
            = ⟨false, tcplen, buffer, []⟩)
      ∧ (∀ out, dec rd.bytes = some out → out.length = rd.bytes.length →
          receive_meta wb dec hreq true tcplen buffer rd
            = drain hreq tcplen (buffer ++ out)) := by
  refine ⟨?_, ?_, ?_⟩
  · intro hd
    unfold receive_meta
    rw [if_neg (by omega)]
    simp [hd]
  · intro out hd hlen
    unfold receive_meta
    rw [if_neg (by omega)]
    simp [hd, hlen]
  · intro out hd hlen
    unfold receive_meta
    rw [if_neg (by omega)]
    simp [hd, hlen]

/-- C5: Read-result classification: a zero-byte read returns false; a
negative read whose `errno` signals would-block returns true with `tcplen`,
the buffer and the delivered-unit trace untouched; a negative read for any
other reason (including a zeroed `errno`, treated as a clean close) returns
false.  The single `rd` argument reflects the single `recv` call an
invocation performs. -/
theorem read_result_classification (wb : Nat → Bool)
    (dec : List Nat → Option (List Nat)) (hreq : List Nat → Bool × Nat)
    (decryptin : Bool) (tcplen : Nat) (buffer : List Nat) (rd : ReadOutcome) :
    (rd.inlen = 0 →
        receive_meta wb dec hreq decryptin tcplen buffer rd
          = ⟨false, tcplen, buffer, []⟩)
      ∧ (rd.inlen < 0 → rd.errno ≠ 0 → wb rd.errno = true →
          receive_meta wb dec hreq decryptin tcplen buffer rd
            = ⟨true, tcplen, buffer, []⟩)
      ∧ (rd.inlen < 0 → rd.errno ≠ 0 → wb rd.errno = false →
          receive_meta wb dec hreq decryptin tcplen buffer rd
            = ⟨false, tcplen, buffer, []⟩)
      ∧ (rd.inlen < 0 → rd.errno = 0 →
          receive_meta wb dec hreq decryptin tcplen buffer rd
            = ⟨false, tcplen, buffer, []⟩) := by
  refine ⟨?_, ?_, ?_, ?_⟩
  · intro h0
    unfold receive_meta
    rw [if_pos (by omega), if_pos (Or.inl h0)]
  · intro hneg herr hwb
    unfold receive_meta
    rw [if_pos (by omega), if_neg (by omega), if_pos hwb]
  · intro hneg herr hwb
    unfold receive_meta
    rw [if_pos (by omega), if_neg (by omega), if_neg (by simp [hwb])]
  · intro hneg herr
    unfold receive_meta
    rw [if_pos (by omega), if_pos (Or.inr herr)]

/-- Identity cipher transform used by concrete instantiations. -/
def encId : List Nat → Option (List Nat) := fun b => some b

/-- A cipher transform that always fails, used by concrete instantiations. -/
def decNever : List Nat → Option (List Nat) := fun _ => none

/-- A would-block predicate that never holds, for concrete instantiations. -/
def wbNever : Nat → Bool := fun _ => false

/-- A would-block predicate holding exactly for errno 11 (EAGAIN), for
concrete instantiations. -/
def wbEq11 : Nat → Bool := fun e => e == 11

/-- A request handler accepting every line and leaving `tcplen` at 0, for
concrete instantiations. -/
def hreqAccept : List Nat → Bool × Nat := fun _ => (true, 0)

/-- A request handler accepting only the line "h" (byte 104) and leaving
`tcplen` at 0, for concrete instantiations. -/
def hreqSel : List Nat → Bool × Nat := fun ln => (ln == [104], 0)

/-- C3 counterexample: the claim says `send_meta` returns true only if the
transport write succeeded, but the code discards the result of `write`; here
the write fails (`wr = false`) on an unencrypted connection, bytes are
handed to the failing write, and `send_meta` still returns true. -/
theorem send_meta_write_failure_counterexample :
    (send_meta encId false (some ⟨0, true, false⟩) [65]).1 = SendOutcome.ret true
      ∧ (send_meta encId false (some ⟨0, true, false⟩) [65]).2 = [[65]] :=
  ⟨rfl, rfl⟩

/-- C3 amended: `send_meta` returns true iff the (possible) encryption step
succeeded — `encryptOut` clear, or the cipher succeeding with output length
equal to the input length; the result of the transport write is never
inspected, so a failed write does not affect the return value.  When the
call returns false, nothing has been written to the transport. -/
theorem send_meta_returns_encrypt_success (enc : List Nat → Option (List Nat))
    (wr : Bool) (c : connection_t) (buffer : List Nat) :
    ((send_meta enc wr (some c) buffer).1 = SendOutcome.ret true ↔
        (c.encryptout = false ∨
          ∃ out, enc buffer = some out ∧ out.length = buffer.length))
      ∧ ((send_meta enc wr (some c) buffer).1 = SendOutcome.ret false →
          (send_meta enc wr (some c) buffer).2 = []) := by
  by_cases he : c.encryptout
  · cases hd : enc buffer with
    | none =>
      have hs : send_meta enc wr (some c) buffer = (.ret false, []) := by
        simp only [send_meta]
        rw [if_pos he, hd]
      rw [hs]
      refine ⟨?_, fun _ => rfl⟩
      constructor
      · intro h
        simp at h
      · rintro (h | ⟨out, hout, _⟩)
        · rw [h] at he
          simp at he
        · simp at hout
    | some out =>
      by_cases hlen : out.length = buffer.length
      · have hs : send_meta enc wr (some c) buffer = (.ret true, [out]) := by
          simp only [send_meta]
          rw [if_pos he, hd]
          simp [hlen]
        rw [hs]
        refine ⟨⟨fun _ => Or.inr ⟨out, rfl, hlen⟩, fun _ => rfl⟩, ?_⟩
        intro h
        simp at h
      · have hs : send_meta enc wr (some c) buffer = (.ret false, []) := by
          simp only [send_meta]
          rw [if_pos he, hd]
          simp [hlen]
        rw [hs]
        refine ⟨?_, fun _ => rfl⟩
        constructor
        · intro h
          simp at h
        · rintro (h | ⟨out2, hout2, hlen2⟩)
          · rw [h] at he
            simp at he
          · have hoo : out = out2 := by
              injection hout2
            rw [← hoo] at hlen2
            exact absurd hlen2 hlen
  · have hs : send_meta enc wr (some c) buffer = (.ret true, [buffer]) := by
      simp only [send_meta]
      rw [if_neg he]
    rw [hs]
    refine ⟨⟨fun _ => Or.inl (by simpa using he), fun _ => rfl⟩, ?_⟩
    intro h
    simp at h

/-- C7: Broadcast exclusion and fire-and-forget: `broadcast_meta` walks the
registry once in order and calls `send_meta` exactly for the peers distinct
from the originator whose `active` flag is set; the trace is a pure filter
and map of the registry, so a failing `send_meta` neither stops the
iteration, nor surfaces to the caller, nor changes which peers are
visited. -/
theorem broadcast_exclusion
    (encOf : connection_t → List Nat → Option (List Nat))
    (wrOf : connection_t → Bool) (from_ : connection_t) (buffer : List Nat)
    (peers : List connection_t) :
    broadcast_meta encOf wrOf from_ buffer peers
      = (peers.filter (fun c => decide (c ≠ from_) && c.active)).map
          (fun c => (c, send_meta (encOf c) (wrOf c) (some c) buffer)) := by
  induction peers with
  | nil => rfl
  | cons c rest ih =>
    by_cases hc : c ≠ from_ ∧ c.active = true
    · have hb : (decide (c ≠ from_) && c.active) = true := by
        simp [hc.1, hc.2]
      rw [broadcast_meta, if_pos hc, List.filter_cons, if_pos hb,
        List.map_cons, ih]
    · have hb : ¬((decide (c ≠ from_) && c.active) = true) := by
        intro hcontra
        simp at hcontra
        exact hc ⟨hcontra.1, hcontra.2⟩
      rw [broadcast_meta, if_neg hc, List.filter_cons, if_neg hb, ih]

/-- C8: Null-connection precondition: `send_meta` called with a NULL
connection aborts the process rather than returning an error code, and for
every non-null connection the call never aborts — it always returns a
boolean. -/
theorem send_meta_null_aborts (enc : List Nat → Option (List Nat)) (wr : Bool)
    (buffer : List Nat) :
    (send_meta enc wr none buffer).1 = SendOutcome.aborted
      ∧ ∀ c : connection_t,
          ∃ b, (send_meta enc wr (some c) buffer).1 = SendOutcome.ret b := by
  refine ⟨rfl, ?_⟩
  intro c
  by_cases he : c.encryptout
  · cases hd : enc buffer with
    | none =>
      refine ⟨false, ?_⟩
      simp only [send_meta]
      rw [if_pos he, hd]
    | some out =>
      by_cases hlen : out.length = buffer.length
      · refine ⟨true, ?_⟩
        simp only [send_meta]
        rw [if_pos he, hd]
        simp [hlen]
      · refine ⟨false, ?_⟩
        simp only [send_meta]
        rw [if_pos he, hd]
        simp [hlen]
  · refine ⟨true, ?_⟩
    simp only [send_meta]
    rw [if_neg he]

/-- C10: Termination of `receive_meta`'s processing loops: each plaintext
transfer iteration consumes a non-empty scratch segment (and exactly
accounts for the scratch bytes), each line extraction strictly shrinks the
buffer by the line and its terminator, and the drain loop never grows the
accumulation buffer; the decrypt branch consumes the whole scratch buffer in
one step by construction. -/
theorem receive_processing_terminates :
    (∀ s : List Nat, s ≠ [] →
        (takeSeg s).1 ≠ []
          ∧ (takeSeg s).1.length + (takeSeg s).2.length = s.length)
      ∧ (∀ buf ln rest : List Nat, splitLine buf = some (ln, rest) →
          rest.length < buf.length)
      ∧ (∀ (hreq : List Nat → Bool × Nat) (tcplen : Nat) (buf : List Nat),
          (drain hreq tcplen buf).buffer.length ≤ buf.length) := by
  refine ⟨?_, ?_, ?_⟩
  · intro s hs
    refine ⟨takeSeg_fst_ne hs, ?_⟩
    have := takeSeg_append s
    calc (takeSeg s).1.length + (takeSeg s).2.length
        = ((takeSeg s).1 ++ (takeSeg s).2).length := by simp
      _ = s.length := by rw [this]
  · intro buf ln rest h
    exact splitLine_some_length h
  · intro hreq tcplen buf
    have h := drain_conserve hreq tcplen buf
    have hlen := congrArg List.length h
    rw [List.length_append] at hlen
    omega

/-- Concrete instance of fragmentation independence: one 3-byte read versus
three 1-byte reads of the stream "h\n" followed by a pending byte. -/
theorem receive_meta_fragmentation_independence_witness :
    (runReads wbNever decNever hreqAccept 0 [] [[104, 10, 65]]).obs
        = (runReads wbNever decNever hreqAccept 0 [] [[104], [10], [65]]).obs
      ∧ ((runReads wbNever decNever hreqAccept 0 [] [[104, 10, 65]]).ok = true →
          [] ++ ([[104, 10, 65]] : List (List Nat)).flatten
            = ((runReads wbNever decNever hreqAccept 0 []
                  [[104, 10, 65]]).units.map unitBytes).flatten
              ++ (runReads wbNever decNever hreqAccept 0 []
                  [[104, 10, 65]]).buffer) :=
  receive_meta_fragmentation_independence wbNever wbNever decNever decNever
    hreqAccept 0 [] [[104, 10, 65]] [[104], [10], [65]]
    (by decide) (by decide) (by decide)

/-- Concrete instance of the block drain: `tcplen = 1` with two buffered
bytes delivers the first byte as a block and drains on. -/
theorem tcplen_block_drain_witness :
    drain hreqAccept 1 [65, 66]
      = consU (MsgUnit.block (([65, 66] : List Nat).take 1))
          (drain hreqAccept 0 (([65, 66] : List Nat).drop 1)) :=
  (tcplen_block_drain hreqAccept 1 [65, 66] (by decide)).1 (by decide)

/-- Concrete instance of the amended write contract: with encryption enabled
and the identity cipher, `send_meta` returns true. -/
theorem send_meta_returns_encrypt_success_witness :
    (send_meta encId true (some ⟨0, true, true⟩) [65]).1
      = SendOutcome.ret true :=
  (send_meta_returns_encrypt_success encId true ⟨0, true, true⟩ [65]).1.mpr
    (Or.inr ⟨[65], rfl, rfl⟩)

/-- Concrete instance of the fatal decryption failure: a failing cipher makes
`receive_meta` return false with nothing delivered and the buffer intact. -/
theorem decrypt_failure_atomic_witness :
    receive_meta wbNever decNever hreqAccept true 0 [] ⟨1, 0, [99]⟩
      = ⟨false, 0, [], []⟩ :=
  (decrypt_failure_atomic wbNever decNever hreqAccept 0 [] ⟨1, 0, [99]⟩
    (by decide)).1 rfl

/-- Concrete instance of the read classification: a would-block read returns
true leaving `tcplen` and the buffer untouched. -/
theorem read_result_classification_witness :
    receive_meta wbEq11 decNever hreqAccept false 5 [70] ⟨-1, 11, []⟩
      = ⟨true, 5, [70], []⟩ :=
  (read_result_classification wbEq11 decNever hreqAccept false 5 [70]
    ⟨-1, 11, []⟩).2.1 (by decide) (by decide) rfl

/-- Concrete instance of fatal request rejection: the second line "x" is
rejected, the call fails, and that line is the last unit delivered. -/
theorem request_reject_fatal_witness :
    (receive_meta wbNever decNever hreqSel false 0 []
        ⟨4, 0, [104, 10, 120, 10]⟩).ok = false
      ∧ ∃ us, (receive_meta wbNever decNever hreqSel false 0 []
          ⟨4, 0, [104, 10, 120, 10]⟩).units = us ++ [MsgUnit.line [120]] :=
  request_reject_fatal wbNever decNever hreqSel false 0 []
    ⟨4, 0, [104, 10, 120, 10]⟩ [120] (by decide) (by decide)

/-- Concrete instance of the terminator convention: the delivered line "h"
contains no newline byte. -/
theorem line_terminator_stripped_witness :
    NL ∉ ([104] : List Nat) :=
  line_terminator_stripped wbNever decNever hreqAccept false 0 []
    ⟨2, 0, [104, 10]⟩ [104] (by decide)

/-- Concrete instance of the termination measures on small inputs. -/
theorem receive_processing_terminates_witness :
    ((takeSeg [104]).1 ≠ []
        ∧ (takeSeg [104]).1.length + (takeSeg [104]).2.length
          = ([104] : List Nat).length)
      ∧ ([] : List Nat).length < ([66, 10] : List Nat).length
      ∧ (drain hreqAccept 0 [10]).buffer.length ≤ ([10] : List Nat).length :=
  ⟨receive_processing_terminates.1 [104] (by decide),
   receive_processing_terminates.2.1 [66, 10] [66] [] (by decide),
   receive_processing_terminates.2.2 hreqAccept 0 [10]⟩
